import Mathlib

/-!
Shallow embedding of the todo application's core data model
(`src/models/todo.rs`) and its JSON persistence snapshot
(`src/utils/storage.rs`), together with theorems checking the
specification's claims about them.

The Rust `HashMap<usize, Todo>` is modelled as an association list
`List (Nat × Todo)` whose list order plays the role of the map's
(unspecified) iteration order; real `HashMap` states always have
pairwise-distinct keys, which appears below as the `KeysNodup`
hypothesis where a claim needs it.  `usize` values are modelled as
`Nat` (no operation here can overflow `usize` on the inputs the
program produces: ids and orders only ever grow by one per `add`).
`chrono::DateTime<Utc>` is modelled as an abstract UTC timestamp
(`Int`); the model never inspects it.
-/

namespace TodoApp

/-- `Todo` struct of `src/models/todo.rs` (`id`, `text`, `completed`,
`due_date`, `tags`, `order`). -/
structure Todo where
  id : Nat
  text : String
  completed : Bool
  due_date : Option Int
  tags : List String
  order : Nat
deriving DecidableEq

namespace Todo

/-- `Todo::new`: fresh todo with `completed = false`, `due_date = None`,
empty tags, `order = id`. -/
def new (id : Nat) (text : String) : Todo :=
  { id := id, text := text, completed := false, due_date := none,
    tags := [], order := id }

/-- `Todo::toggle`: flips `completed`. -/
def toggle (t : Todo) : Todo :=
  { t with completed := !t.completed }

/-- `Todo::set_due_date`. -/
def set_due_date (t : Todo) (date : Option Int) : Todo :=
  { t with due_date := date }

/-- `Todo::add_tag`: pushes the tag iff not already present. -/
def add_tag (t : Todo) (tag : String) : Todo :=
  if t.tags.contains tag then t else { t with tags := t.tags ++ [tag] }

/-- `Todo::remove_tag`: `retain(|t| t != tag)`. -/
def remove_tag (t : Todo) (tag : String) : Todo :=
  { t with tags := t.tags.filter (fun s => s ≠ tag) }

end Todo

/-- `FilterState` enum. -/
inductive FilterState where
  | All
  | Active
  | Completed
deriving DecidableEq

/-- `FilterState::matches`. -/
def FilterState.matches : FilterState → Todo → Bool
  | .All, _ => true
  | .Active, t => !t.completed
  | .Completed, t => t.completed

/-- `TodoList` struct: `todos: HashMap<usize, Todo>` (as an association
list in iteration order) and `next_id: usize`. -/
structure TodoList where
  todos : List (Nat × Todo)
  next_id : Nat
deriving DecidableEq

namespace TodoList

/-- The `HashMap` representation invariant: keys are pairwise distinct. -/
def KeysNodup (l : TodoList) : Prop :=
  (l.todos.map Prod.fst).Nodup

/-- `HashMap::contains_key`. -/
def contains_key (l : TodoList) (id : Nat) : Bool :=
  l.todos.any (fun e => e.1 == id)

/-- `HashMap::get` (the value stored under `id`, if any). -/
def get? (l : TodoList) (id : Nat) : Option Todo :=
  (l.todos.find? (fun e => e.1 == id)).map Prod.snd

/-- `HashMap::get_mut` followed by an in-place update `f` of the stored
todo.  On states with distinct keys this touches exactly the entry
stored under `id`. -/
def modifyTodo (l : TodoList) (id : Nat) (f : Todo → Todo) : TodoList :=
  { l with todos := l.todos.map (fun e => if e.1 = id then (e.1, f e.2) else e) }

/-- `HashMap::insert`: replaces the value if the key is present,
otherwise adds a new entry (placed at the end of the modelled
iteration order). -/
def insert (l : TodoList) (id : Nat) (t : Todo) : TodoList :=
  if l.contains_key id then l.modifyTodo id (fun _ => t)
  else { l with todos := l.todos ++ [(id, t)] }

/-- `HashMap::remove`, state part: drops the entry keyed `id`. -/
def removeKey (l : TodoList) (id : Nat) : TodoList :=
  { l with todos := l.todos.filter (fun e => e.1 ≠ id) }

/-- `TodoList::new`. -/
def new : TodoList :=
  { todos := [], next_id := 1 }

/-- `TodoList::add`: inserts `Todo::new(next_id, text)` under key
`next_id`, increments `next_id`, returns the id used. -/
def add (l : TodoList) (text : String) : Nat × TodoList :=
  let id := l.next_id
  let l1 := l.insert id (Todo.new id text)
  (id, { l1 with next_id := l1.next_id + 1 })

/-- `TodoList::remove`: removes and returns the todo with the given id. -/
def remove (l : TodoList) (id : Nat) : Option Todo × TodoList :=
  (l.get? id, l.removeKey id)

/-- `TodoList::toggle_completion`. -/
def toggle_completion (l : TodoList) (todo_id : Nat) : Bool × TodoList :=
  if l.contains_key todo_id then (true, l.modifyTodo todo_id Todo.toggle)
  else (false, l)

/-- `TodoList::toggle` (compatibility wrapper). -/
def toggle (l : TodoList) (id : Nat) : Bool × TodoList :=
  l.toggle_completion id

/-- `TodoList::update_text`. -/
def update_text (l : TodoList) (id : Nat) (text : String) : Bool × TodoList :=
  if l.contains_key id then (true, l.modifyTodo id (fun t => { t with text := text }))
  else (false, l)

/-- `TodoList::validate_reorder_request`. -/
def validate_reorder_request (l : TodoList) (source_id target_id : Nat) : Bool :=
  (source_id != target_id) && l.contains_key source_id && l.contains_key target_id

/-- `TodoList::get_todo_order`: the order of the todo, `0` if absent. -/
def get_todo_order (l : TodoList) (id : Nat) : Nat :=
  ((l.get? id).map Todo.order).getD 0

/-- `TodoList::reorder_todos_moving_down`: decrements `order` for todos
with `source_order < order ≤ target_order`. -/
def reorder_todos_moving_down (l : TodoList) (source_order target_order : Nat) : TodoList :=
  { l with todos := l.todos.map (fun e =>
      if source_order < e.2.order ∧ e.2.order ≤ target_order
      then (e.1, { e.2 with order := e.2.order - 1 }) else e) }

/-- `TodoList::reorder_todos_moving_up`: increments `order` for todos
with `target_order ≤ order < source_order`. -/
def reorder_todos_moving_up (l : TodoList) (source_order target_order : Nat) : TodoList :=
  { l with todos := l.todos.map (fun e =>
      if target_order ≤ e.2.order ∧ e.2.order < source_order
      then (e.1, { e.2 with order := e.2.order + 1 }) else e) }

/-- `TodoList::update_source_todo_order`. -/
def update_source_todo_order (l : TodoList) (source_id target_order : Nat) : Bool × TodoList :=
  if l.contains_key source_id
  then (true, l.modifyTodo source_id (fun t => { t with order := target_order }))
  else (false, l)

/-- `TodoList::reorder`: validate, shift the block of orders between
source and target in the right direction, then set the source todo's
order to the target order. -/
def reorder (l : TodoList) (source_id target_id : Nat) : Bool × TodoList :=
  if l.validate_reorder_request source_id target_id = false then (false, l)
  else
    let source_order := l.get_todo_order source_id
    let target_order := l.get_todo_order target_id
    let l1 :=
      if source_order < target_order
      then l.reorder_todos_moving_down source_order target_order
      else l.reorder_todos_moving_up source_order target_order
    (true, (l1.update_source_todo_order source_id target_order).2)

/-- The map's values in iteration order (`self.todos.values()`). -/
def values (l : TodoList) : List Todo :=
  l.todos.map Prod.snd

/-- `TodoList::all`: values sorted ascending by `order`.  Rust's
`sort_by_key` is a stable sort, and a stable sort by a total key
comparison is a unique function, here realised by `insertionSort`. -/
def all (l : TodoList) : List Todo :=
  l.values.insertionSort (fun a b => a.order ≤ b.order)

/-- `TodoList::filtered`: the matching values, in iteration order
(the Rust code does not sort here). -/
def filtered (l : TodoList) (filter : FilterState) : List Todo :=
  l.values.filter (fun t => filter.matches t)

/-- `TodoList::clear_completed`: collects the ids of completed todos,
removes each, returns how many there were. -/
def clear_completed (l : TodoList) : Nat × TodoList :=
  let completed_ids := (l.todos.filter (fun e => e.2.completed)).map Prod.fst
  (completed_ids.length, completed_ids.foldl (fun acc id => acc.removeKey id) l)

/-- `TodoList::active_count`. -/
def active_count (l : TodoList) : Nat :=
  (l.values.filter (fun t => !t.completed)).length

/-- `TodoList::completed_count`. -/
def completed_count (l : TodoList) : Nat :=
  (l.values.filter (fun t => t.completed)).length

/-- `TodoList::total_count`. -/
def total_count (l : TodoList) : Nat :=
  l.todos.length

/-- `TodoList::set_due_date`. -/
def set_due_date (l : TodoList) (id : Nat) (date : Option Int) : Bool × TodoList :=
  if l.contains_key id then (true, l.modifyTodo id (fun t => t.set_due_date date))
  else (false, l)

/-- `TodoList::add_tag`. -/
def add_tag (l : TodoList) (id : Nat) (tag : String) : Bool × TodoList :=
  if l.contains_key id then (true, l.modifyTodo id (fun t => t.add_tag tag))
  else (false, l)

/-- `TodoList::remove_tag`. -/
def remove_tag (l : TodoList) (id : Nat) (tag : String) : Bool × TodoList :=
  if l.contains_key id then (true, l.modifyTodo id (fun t => t.remove_tag tag))
  else (false, l)

/-- `TodoList::all_tags`: the distinct tags across all todos (the Rust
code collects them into a `HashSet`, so only the resulting set is
specified; the model keeps first occurrences). -/
def all_tags (l : TodoList) : List String :=
  (l.values.flatMap Todo.tags).dedup

/-- The multiset (list in iteration order) of order values. -/
def orders (l : TodoList) : List Nat :=
  l.todos.map (fun e => e.2.order)

end TodoList

/-- Value-level effect of `reorder_todos_moving_down` on one order. -/
def shiftDown (source_order target_order v : Nat) : Nat :=
  if source_order < v ∧ v ≤ target_order then v - 1 else v

/-- Value-level effect of `reorder_todos_moving_up` on one order. -/
def shiftUp (source_order target_order v : Nat) : Nat :=
  if target_order ≤ v ∧ v < source_order then v + 1 else v

/-! ## Persistence snapshot

`src/utils/storage.rs` serializes the whole `TodoList` with
`serde_json::to_string` and reads it back with `serde_json::from_str`;
the `Serialize`/`Deserialize` implementations are derived, so their
code is not part of this repository. -/

/-- A JSON-compatible document tree. -/
inductive Json where
  | null
  | bool (b : Bool)
  | num (n : Int)
  | str (s : String)
  | arr (items : List Json)
  | obj (fields : List (String × Json))

/-- Reads a JSON number back as a `usize`. -/
def Json.asNat? : Json → Option Nat
  | .num n => if 0 ≤ n then some n.toNat else none
  | _ => none

/-- Reads a JSON string. -/
def Json.asString? : Json → Option String
  | .str s => some s
  | _ => none

/-- Reads a JSON boolean. -/
def Json.asBool? : Json → Option Bool
  | .bool b => some b
  | _ => none

/-- Reads an optional timestamp: `null` for `None`, otherwise the
serialized instant. -/
def Json.asDueDate? : Json → Option (Option Int)
  | .null => some none
  | .num d => some (some d)
  | _ => none

/-- Modelled from the spec: the derived `Serialize` for `Todo` (not in
`src/`) writes a flat record "id, text, completed, due_date as an
instant or absent, tags as a list, order as an integer"; the instant's
textual ISO-8601 form is abstracted to its timestamp. -/
def Todo.toJson (t : Todo) : Json :=
  .obj [("id", .num t.id), ("text", .str t.text),
        ("completed", .bool t.completed),
        ("due_date", match t.due_date with | none => .null | some d => .num d),
        ("tags", .arr (t.tags.map Json.str)),
        ("order", .num t.order)]

/-- Modelled from the spec: the derived `Deserialize` for `Todo`,
reading back the flat record written by `Todo.toJson`. -/
def Todo.fromJson? : Json → Option Todo
  | .obj [("id", ji), ("text", jt), ("completed", jc),
          ("due_date", jd), ("tags", jtags), ("order", jo)] => do
    let id ← ji.asNat?
    let text ← jt.asString?
    let completed ← jc.asBool?
    let due ← jd.asDueDate?
    let tags ← (match jtags with | .arr xs => xs.mapM Json.asString? | _ => none)
    let order ← jo.asNat?
    some { id := id, text := text, completed := completed,
           due_date := due, tags := tags, order := order }
  | _ => none

/-- One serialized map entry: the id (kept as a JSON number) paired
with the todo's record. -/
def TodoList.entryToJson (e : Nat × Todo) : Json :=
  .arr [.num e.1, e.2.toJson]

/-- Reads one serialized map entry back. -/
def TodoList.entryFromJson? : Json → Option (Nat × Todo)
  | .arr [jk, jt] => do
    let k ← jk.asNat?
    let t ← Todo.fromJson? jt
    some (k, t)
  | _ => none

/-- Modelled from the spec: the derived `Serialize` for `TodoList` (not
in `src/`) writes "a mapping of id→Todo ... plus the `next_id` counter,
serialized as a single JSON-compatible document"; map entries appear in
iteration order. -/
def TodoList.toJson (l : TodoList) : Json :=
  .obj [("todos", .arr (l.todos.map TodoList.entryToJson)),
        ("next_id", .num l.next_id)]

/-- Modelled from the spec: the derived `Deserialize` for `TodoList`,
reading back the document written by `TodoList.toJson`. -/
def TodoList.fromJson? : Json → Option TodoList
  | .obj [("todos", .arr entries), ("next_id", jn)] => do
    let todos ← entries.mapM TodoList.entryFromJson?
    let n ← jn.asNat?
    some { todos := todos, next_id := n }
  | _ => none

/-! ## Concrete states used by witnesses and counterexamples -/

/-- Three todos added in sequence: ids and orders `1, 2, 3`. -/
def scenarioABC : TodoList :=
  (((TodoList.new.add "A").2.add "B").2.add "C").2

/-- A two-entry state whose map-iteration order disagrees with the
ascending-`order` presentation order: entry with order `2` iterates
first.  A legitimate `HashMap` state (distinct keys; iteration order of
a Rust `HashMap` is unspecified). -/
def twoOutOfOrder : TodoList :=
  { todos := [(2, Todo.new 2 "b"), (1, Todo.new 1 "a")], next_id := 3 }

/-- One active and one completed todo (completed iterates second). -/
def oneDone : TodoList :=
  { todos := [(1, Todo.new 1 "keep"), (2, (Todo.new 2 "done").toggle)], next_id := 3 }

/-! ## Reachable states (claim C10)

The public mutation surface of `TodoList`, as invoked by the UI layer;
each constructor carries the operation's inputs.  Return values are
discarded, the state transition is `applyOp`. -/

inductive Op where
  | add (text : String)
  | remove (id : Nat)
  | toggle (id : Nat)
  | update_text (id : Nat) (text : String)
  | set_due_date (id : Nat) (date : Option Int)
  | add_tag (id : Nat) (tag : String)
  | remove_tag (id : Nat) (tag : String)
  | clear_completed
  | reorder (source_id target_id : Nat)

/-- State transition of one public operation. -/
def applyOp (l : TodoList) : Op → TodoList
  | .add text => (l.add text).2
  | .remove id => (l.remove id).2
  | .toggle id => (l.toggle id).2
  | .update_text id text => (l.update_text id text).2
  | .set_due_date id date => (l.set_due_date id date).2
  | .add_tag id tag => (l.add_tag id tag).2
  | .remove_tag id tag => (l.remove_tag id tag).2
  | .clear_completed => l.clear_completed.2
  | .reorder s t => (l.reorder s t).2

/-- Runs a sequence of public operations from a starting state. -/
def runOps (l : TodoList) (ops : List Op) : TodoList :=
  ops.foldl applyOp l

/-! ## Basic lemmas about the map embedding -/

namespace TodoList

theorem contains_key_iff {l : TodoList} {id : Nat} :
    l.contains_key id = true ↔ ∃ t, (id, t) ∈ l.todos := by
  simp only [contains_key, List.any_eq_true, beq_iff_eq]
  constructor
  · rintro ⟨⟨k, t⟩, hmem, rfl⟩
    exact ⟨t, hmem⟩
  · rintro ⟨t, hmem⟩
    exact ⟨(id, t), hmem, rfl⟩

theorem contains_key_modifyTodo (l : TodoList) (id j : Nat) (f : Todo → Todo) :
    (l.modifyTodo id f).contains_key j = l.contains_key j := by
  simp only [modifyTodo, contains_key, List.any_map]
  congr 1
  funext e
  by_cases h : e.1 = id <;> simp [h, Function.comp]

theorem get?_modifyTodo_self (l : TodoList) (id : Nat) (f : Todo → Todo) :
    (l.modifyTodo id f).get? id = (l.get? id).map f := by
  simp only [modifyTodo, get?]
  induction l.todos with
  | nil => rfl
  | cons e es ih =>
    by_cases h : e.1 = id
    · simp [List.find?_cons, h]
    · have hb : (e.1 == id) = false := by simpa using h
      rw [List.map_cons, if_neg h, List.find?_cons_of_neg _ (by simp [hb]),
        List.find?_cons_of_neg _ (by simp [hb])]
      exact ih

theorem modifyTodo_modifyTodo (l : TodoList) (id : Nat) (f g : Todo → Todo) :
    (l.modifyTodo id f).modifyTodo id g = l.modifyTodo id (fun t => g (f t)) := by
  simp only [modifyTodo, List.map_map]
  have he : ((fun e : Nat × Todo => if e.1 = id then (e.1, g e.2) else e) ∘
      (fun e : Nat × Todo => if e.1 = id then (e.1, f e.2) else e)) =
      (fun e : Nat × Todo => if e.1 = id then (e.1, g (f e.2)) else e) := by
    funext e
    by_cases h : e.1 = id <;> simp [h, Function.comp]
  rw [he]

theorem modifyTodo_id_fun (l : TodoList) (id : Nat) :
    l.modifyTodo id (fun t => t) = l := by
  simp [modifyTodo]

theorem contains_key_of_get? {l : TodoList} {id : Nat} {t : Todo}
    (h : l.get? id = some t) : l.contains_key id = true := by
  simp only [get?, Option.map_eq_some'] at h
  obtain ⟨e, he, rfl⟩ := h
  have hmem := List.mem_of_find?_eq_some he
  have hk := List.find?_some he
  simp only [beq_iff_eq] at hk
  exact contains_key_iff.2 ⟨e.2, by rw [← hk]; exact hmem⟩

end TodoList

theorem Todo.toggle_toggle (t : Todo) : t.toggle.toggle = t := by
  simp [Todo.toggle]

theorem Todo.tags_add_tag_contains (t : Todo) (tag : String) :
    (t.add_tag tag).tags.contains tag = true := by
  unfold Todo.add_tag
  by_cases h : tag ∈ t.tags
  · simp [h]
  · simp [h]

theorem Todo.add_tag_add_tag (t : Todo) (tag : String) :
    (t.add_tag tag).add_tag tag = t.add_tag tag := by
  by_cases h : tag ∈ t.tags
  · have e1 : t.add_tag tag = t := by simp [Todo.add_tag, h]
    rw [e1]
    exact e1
  · have e1 : t.add_tag tag = { t with tags := t.tags ++ [tag] } := by
      simp [Todo.add_tag, h]
    rw [e1]
    have h2 : tag ∈ ({ t with tags := t.tags ++ [tag] } : Todo).tags := by simp
    simp [Todo.add_tag, h2]

/-! ## Claim theorems -/

/-- C1.  Insert-before reorder semantics on the three-element scenario:
with todos `A, B, C` holding orders `1, 2, 3`, `reorder(A, C)` succeeds
and `all()` yields ids `[B, C, A]`; the subsequent `reorder(C, B)`
succeeds and `all()` yields `[C, B, A]` — `C` is placed immediately
before `B` and `A` is unaffected. -/
theorem reorder_insert_before_scenario :
    (scenarioABC.reorder 1 3).1 = true ∧
    ((scenarioABC.reorder 1 3).2.all.map Todo.id = [2, 3, 1]) ∧
    ((scenarioABC.reorder 1 3).2.reorder 3 2).1 = true ∧
    (((scenarioABC.reorder 1 3).2.reorder 3 2).2.all.map Todo.id = [3, 2, 1]) := by
  decide

/-- C3.  Reorder failure atomicity: when `source_id = target_id` or
either id is absent, `reorder` returns `false` and the state — todos,
orders and `next_id` — is exactly the state before the call. -/
theorem reorder_invalid_atomic (l : TodoList) (s t : Nat)
    (h : s = t ∨ l.contains_key s = false ∨ l.contains_key t = false) :
    l.reorder s t = (false, l) := by
  have hv : l.validate_reorder_request s t = false := by
    rcases h with h | h | h
    · simp [TodoList.validate_reorder_request, h]
    · simp [TodoList.validate_reorder_request, h]
    · simp [TodoList.validate_reorder_request, h]
  simp [TodoList.reorder, hv]

/-- Witness for C3 at a concrete state: `reorder(1, 1)` on the
three-todo scenario fails and leaves the state untouched. -/
theorem reorder_invalid_atomic_witness :
    scenarioABC.reorder 1 1 = (false, scenarioABC) :=
  reorder_invalid_atomic scenarioABC 1 1 (Or.inl rfl)

/-- C6.  `add` postcondition: when the fresh key `next_id` is not yet
present (true of every state the program builds, see the C10
invariant), `add(text)` returns the pre-call `next_id`, bumps the
counter by one, and appends exactly one todo whose `id` and `order`
equal the returned id, with the given text, not completed, no due date
and no tags; all existing entries are untouched. -/
theorem add_postcondition (l : TodoList) (text : String)
    (h : l.contains_key l.next_id = false) :
    l.add text = (l.next_id,
      { todos := l.todos ++ [(l.next_id,
          { id := l.next_id, text := text, completed := false,
            due_date := none, tags := [], order := l.next_id })],
        next_id := l.next_id + 1 }) := by
  simp [TodoList.add, TodoList.insert, h, Todo.new]

theorem TodoList.entry_eq_of_key_eq {l : TodoList} (h : l.KeysNodup) {e e' : Nat × Todo}
    (he : e ∈ l.todos) (he' : e' ∈ l.todos) (hk : e.1 = e'.1) : e = e' :=
  List.inj_on_of_nodup_map h he he' hk

theorem TodoList.foldl_removeKey (ids : List Nat) :
    ∀ l : TodoList, ids.foldl (fun acc id => acc.removeKey id) l =
      { todos := l.todos.filter (fun e => !ids.contains e.1), next_id := l.next_id } := by
  induction ids with
  | nil =>
    intro l
    simp
  | cons i is ih =>
    intro l
    rw [List.foldl_cons, ih]
    simp only [TodoList.removeKey, List.filter_filter]
    have hp : (fun e : Nat × Todo => !is.contains e.1 && decide (e.1 ≠ i))
        = (fun e : Nat × Todo => !((i :: is).contains e.1)) := by
      funext e
      simp [List.contains_cons, Bool.not_or, Bool.and_comm]
    rw [hp]

/-- C8.  Toggle involution: for a present id, `toggle(id)` returns
`true` twice in a row and the second call restores the entire state —
the todo's `completed` flag, every other field and every other todo —
to exactly what it was; for an absent id `toggle` returns `false` and
changes nothing. -/
theorem toggle_involution (l : TodoList) (id : Nat) :
    (l.contains_key id = true →
      (l.toggle id).1 = true ∧ ((l.toggle id).2.toggle id).1 = true ∧
      ((l.toggle id).2.toggle id).2 = l) ∧
    (l.contains_key id = false → l.toggle id = (false, l)) := by
  constructor
  · intro h
    have h1 : l.toggle id = (true, l.modifyTodo id Todo.toggle) := by
      simp [TodoList.toggle, TodoList.toggle_completion, h]
    have hc2 : (l.modifyTodo id Todo.toggle).contains_key id = true := by
      rw [TodoList.contains_key_modifyTodo]
      exact h
    rw [h1]
    have h2 : ((true, l.modifyTodo id Todo.toggle) : Bool × TodoList).2.toggle id
        = (true, (l.modifyTodo id Todo.toggle).modifyTodo id Todo.toggle) := by
      simp [TodoList.toggle, TodoList.toggle_completion, hc2]
    rw [h2]
    refine ⟨rfl, rfl, ?_⟩
    rw [TodoList.modifyTodo_modifyTodo]
    simp only [Todo.toggle_toggle]
    exact TodoList.modifyTodo_id_fun l id
  · intro h
    simp [TodoList.toggle, TodoList.toggle_completion, h]

/-- Witness for C8: a present id (both calls return `true` and the
state round-trips) and an absent one (the call is a no-op). -/
theorem toggle_involution_witness :
    ((scenarioABC.toggle 1).1 = true ∧ ((scenarioABC.toggle 1).2.toggle 1).1 = true ∧
      ((scenarioABC.toggle 1).2.toggle 1).2 = scenarioABC) ∧
    scenarioABC.toggle 99 = (false, scenarioABC) :=
  ⟨(toggle_involution scenarioABC 1).1 (by decide),
   (toggle_involution scenarioABC 99).2 (by decide)⟩

/-- The tag count after `Todo::add_tag` is exactly one when it was at
most one before (it always is in states the program builds: tags are
only ever added through `add_tag`, which refuses duplicates). -/
theorem Todo.count_tags_add_tag (td : Todo) (tag : String)
    (hcount : td.tags.count tag ≤ 1) :
    (td.add_tag tag).tags.count tag = 1 := by
  unfold Todo.add_tag
  by_cases h : tag ∈ td.tags
  · have hc : td.tags.contains tag = true := by simpa using h
    rw [if_pos hc]
    exact Nat.le_antisymm hcount (List.count_pos_iff.2 h)
  · have hc : ¬(td.tags.contains tag = true) := by simpa using h
    have h0 : td.tags.count tag = 0 := List.count_eq_zero.2 h
    rw [if_neg hc]
    simp [h0]

/-- C9.  Tag-add idempotence: for a present id whose todo does not
already hold a duplicated `tag` (no state the program builds does),
`add_tag(id, tag)` returns `true`, a second identical call returns
`true` and leaves the whole state unchanged, and the todo's tag list
afterwards holds exactly one occurrence of `tag`. -/
theorem add_tag_idempotent (l : TodoList) (id : Nat) (tag : String) (td : Todo)
    (h : l.get? id = some td) (hcount : td.tags.count tag ≤ 1) :
    (l.add_tag id tag).1 = true ∧
    ((l.add_tag id tag).2.add_tag id tag).1 = true ∧
    ((l.add_tag id tag).2.add_tag id tag).2 = (l.add_tag id tag).2 ∧
    (l.add_tag id tag).2.get? id = some (td.add_tag tag) ∧
    (td.add_tag tag).tags.count tag = 1 := by
  have hc := TodoList.contains_key_of_get? h
  have e1 : l.add_tag id tag = (true, l.modifyTodo id (fun t => t.add_tag tag)) := by
    simp [TodoList.add_tag, hc]
  have hc2 : (l.modifyTodo id (fun t => t.add_tag tag)).contains_key id = true := by
    rw [TodoList.contains_key_modifyTodo]
    exact hc
  rw [e1]
  have e2 : ((true, l.modifyTodo id (fun t => t.add_tag tag)) : Bool × TodoList).2.add_tag id tag
      = (true, (l.modifyTodo id (fun t => t.add_tag tag)).modifyTodo id (fun t => t.add_tag tag)) := by
    simp [TodoList.add_tag, hc2]
  rw [e2]
  refine ⟨rfl, rfl, ?_, ?_, Todo.count_tags_add_tag td tag hcount⟩
  · rw [TodoList.modifyTodo_modifyTodo]
    simp only [Todo.add_tag_add_tag]
  · rw [TodoList.get?_modifyTodo_self, h]
    rfl

/-- Witness for C9: tagging the first todo of the scenario twice. -/
theorem add_tag_idempotent_witness :
    (scenarioABC.add_tag 1 "home").1 = true ∧
    ((scenarioABC.add_tag 1 "home").2.add_tag 1 "home").1 = true ∧
    ((scenarioABC.add_tag 1 "home").2.add_tag 1 "home").2 = (scenarioABC.add_tag 1 "home").2 ∧
    (scenarioABC.add_tag 1 "home").2.get? 1 = some ((Todo.new 1 "A").add_tag "home") ∧
    ((Todo.new 1 "A").add_tag "home").tags.count "home" = 1 :=
  add_tag_idempotent scenarioABC 1 "home" (Todo.new 1 "A") (by decide) (by decide)

/-- C4 fails as stated: a legitimate two-entry state (distinct keys;
`HashMap` iteration order is unspecified, here the entry with order `2`
iterates first) on which `filtered(All)` is not the matching
subsequence of `all()` — the entities are the same but the sequence is
not ascending by `order`. -/
theorem filtered_ne_all_filter :
    twoOutOfOrder.filtered FilterState.All ≠
      twoOutOfOrder.all.filter (fun t => FilterState.All.matches t) := by
  decide

/-- C4 amended: `filtered(f)` returns exactly the todos of `all()`
matching `f` — the same entities, as a permutation of the matching
subsequence of `all()` — but in the map's unspecified iteration order,
not necessarily ascending by `order` (the code does not sort here). -/
theorem filtered_perm_all_filter (l : TodoList) (f : FilterState) :
    (l.filtered f).Perm (l.all.filter (fun t => f.matches t)) := by
  have h : l.all.Perm l.values :=
    List.perm_insertionSort (fun a b : Todo => a.order ≤ b.order) l.values
  exact (h.filter _).symm

/-- Witness for C6: adding to the empty list. -/
theorem add_postcondition_witness :
    TodoList.new.add "x" = (1,
      { todos := [(1, { id := 1, text := "x", completed := false,
                        due_date := none, tags := [], order := 1 })],
        next_id := 2 }) :=
  add_postcondition TodoList.new "x" (by decide)

/-- C7.  `clear_completed` returns exactly the number of completed
todos at the moment of the call and removes exactly those entries: the
surviving todos are precisely the non-completed entries, unchanged and
in their original iteration order, `next_id` is untouched, and
afterwards `completed_count()` is `0`.  (Keys being pairwise distinct
is the `HashMap` representation invariant.) -/
theorem clear_completed_spec (l : TodoList) (h : l.KeysNodup) :
    l.clear_completed = (l.completed_count,
      { todos := l.todos.filter (fun e => !e.2.completed), next_id := l.next_id }) ∧
    l.clear_completed.2.completed_count = 0 := by
  have hlen : ((l.todos.filter (fun e => e.2.completed)).map Prod.fst).length
      = l.completed_count := by
    simp only [TodoList.completed_count, TodoList.values, List.filter_map, List.length_map]
    rfl
  have hfc : l.todos.filter
        (fun e => !(((l.todos.filter (fun e => e.2.completed)).map Prod.fst).contains e.1))
      = l.todos.filter (fun e => !e.2.completed) := by
    apply List.filter_congr
    intro e he
    have hiff : (((l.todos.filter (fun e => e.2.completed)).map Prod.fst).contains e.1)
        = e.2.completed := by
      by_cases hc : e.2.completed = true
      · have hmem : e.1 ∈ (l.todos.filter (fun e => e.2.completed)).map Prod.fst :=
          List.mem_map.2 ⟨e, List.mem_filter.2 ⟨he, hc⟩, rfl⟩
        simp [hc, hmem]
      · have hnmem : e.1 ∉ (l.todos.filter (fun e => e.2.completed)).map Prod.fst := by
          intro hmem
          obtain ⟨e', he', hkey⟩ := List.mem_map.1 hmem
          have he'f := List.mem_filter.1 he'
          have heq : e' = e := TodoList.entry_eq_of_key_eq h he'f.1 he hkey
          rw [heq] at he'f
          exact hc he'f.2
        simp [hnmem, hc]
    rw [hiff]
  have hmain : l.clear_completed = (l.completed_count,
      { todos := l.todos.filter (fun e => !e.2.completed), next_id := l.next_id }) := by
    have hcc : l.clear_completed =
        (((l.todos.filter (fun e => e.2.completed)).map Prod.fst).length,
          ((l.todos.filter (fun e => e.2.completed)).map Prod.fst).foldl
            (fun acc id => acc.removeKey id) l) := rfl
    rw [hcc, TodoList.foldl_removeKey, hlen, hfc]
  refine ⟨hmain, ?_⟩
  rw [hmain]
  simp only [TodoList.completed_count, TodoList.values, List.filter_map, Function.comp,
    List.filter_filter]
  simp

/-- Witness for C7: one active and one completed todo; the call
returns `1`, keeps the active todo unchanged, and afterwards the
completed count is `0`. -/
theorem clear_completed_spec_witness :
    (oneDone.clear_completed = (oneDone.completed_count,
      { todos := oneDone.todos.filter (fun e => !e.2.completed),
        next_id := oneDone.next_id }) ∧
    oneDone.clear_completed.2.completed_count = 0) :=
  clear_completed_spec oneDone (by unfold TodoList.KeysNodup; decide)

/-- Accumulator form: running the decoding loop over an encoded list
recovers the accumulator followed by the list. -/
theorem mapM_loop_map_some {α β : Type} (f : α → β) (g : β → Option α) :
    ∀ (xs : List α) (acc : List α), (∀ x ∈ xs, g (f x) = some x) →
      List.mapM.loop g (xs.map f) acc = some (acc.reverse ++ xs) := by
  intro xs
  induction xs with
  | nil =>
    intro acc _
    simp [List.mapM.loop]
  | cons x xs ih =>
    intro acc hall
    have hx : g (f x) = some x := hall x (by simp)
    have hxs := ih (x :: acc) (fun y hy => hall y (by simp [hy]))
    have hstep : List.mapM.loop g ((x :: xs).map f) acc
        = (g (f x)).bind (fun y => List.mapM.loop g (xs.map f) (y :: acc)) := rfl
    rw [hstep, hx, Option.some_bind, hxs]
    simp

/-- Mapping a faithful decoder over an encoded list recovers the list. -/
theorem mapM_map_some {α β : Type} (f : α → β) (g : β → Option α)
    (xs : List α) (hall : ∀ x ∈ xs, g (f x) = some x) :
    (xs.map f).mapM g = some xs := by
  have h := mapM_loop_map_some f g xs [] hall
  simpa using h

/-- The serialized `Todo` record reads back to the same todo. -/
theorem Todo.fromJson?_toJson (t : Todo) : Todo.fromJson? t.toJson = some t := by
  cases t with
  | mk id text completed due tags order =>
    have htags : List.mapM.loop Json.asString? (tags.map Json.str) [] = some tags :=
      mapM_map_some Json.str Json.asString? tags (fun x _ => rfl)
    cases due with
    | none =>
      simp [Todo.toJson, Todo.fromJson?, Json.asNat?, Json.asBool?,
        Json.asString?, Json.asDueDate?, htags]
    | some d =>
      simp [Todo.toJson, Todo.fromJson?, Json.asNat?, Json.asBool?,
        Json.asString?, Json.asDueDate?, htags]

/-- One serialized map entry reads back to the same entry. -/
theorem TodoList.entryFromJson?_entryToJson (e : Nat × Todo) :
    TodoList.entryFromJson? (TodoList.entryToJson e) = some e := by
  simp [TodoList.entryToJson, TodoList.entryFromJson?, Json.asNat?,
    Todo.fromJson?_toJson]

/-- C5.  Persistence round-trip: deserializing the serialized snapshot
of any collection reproduces the collection exactly — hence the same
`all()` sequence (ids, texts, completion flags, due dates, tags,
orders), the same `all_tags()` set and the same `next_id` counter. -/
theorem persistence_roundtrip (l : TodoList) :
    TodoList.fromJson? l.toJson = some l := by
  have hentries : List.mapM.loop TodoList.entryFromJson?
        (l.todos.map TodoList.entryToJson) [] = some l.todos :=
    mapM_map_some TodoList.entryToJson TodoList.entryFromJson? l.todos
      (fun e _ => TodoList.entryFromJson?_entryToJson e)
  simp [TodoList.toJson, TodoList.fromJson?, hentries, Json.asNat?]

/-! ## Order-density machinery for claim C2 -/

theorem mem_range'_iff {s n m : Nat} : m ∈ List.range' s n ↔ s ≤ m ∧ m < s + n := by
  rw [List.mem_range']
  constructor
  · rintro ⟨i, hi, rfl⟩
    omega
  · intro h
    exact ⟨m - s, by omega, by omega⟩

theorem map_pred_range' (s n : Nat) :
    (List.range' (s + 1) n).map (fun v => v - 1) = List.range' s n := by
  induction n generalizing s with
  | zero => rfl
  | succ n ih =>
    rw [List.range'_succ, List.range'_succ, List.map_cons, ih (s + 1)]
    simp

theorem map_succ_range' (s n : Nat) :
    (List.range' s n).map (fun v => v + 1) = List.range' (s + 1) n := by
  have h := List.map_add_range' 1 s n 1
  have hc : (List.range' s n).map (fun v => v + 1)
      = (List.range' s n).map (fun x => 1 + x) := by
    apply List.map_congr_left
    intro a _
    omega
  rw [hc, h, Nat.add_comm 1 s]

theorem range'_erase (k N x : Nat) (h1 : k ≤ x) (h2 : x < k + N) :
    (List.range' k N).erase x
      = List.range' k (x - k) ++ List.range' (x + 1) (k + N - x - 1) := by
  have e1 := List.range'_append k (x - k) (k + N - x) 1
  have h1' : k + 1 * (x - k) = x := by omega
  have h2' : k + N - x + (x - k) = N := by omega
  rw [h1', h2'] at e1
  have h3 : k + N - x = (k + N - x - 1) + 1 := by omega
  rw [h3, List.range'_succ] at e1
  rw [← e1, List.erase_append_right _ (by
    intro hmem
    have := mem_range'_iff.1 hmem
    omega), List.erase_cons_head]

theorem map_shiftDown_erase (k N so tg : Nat) (hks : k ≤ so) (hst : so < tg)
    (htk : tg < k + N) :
    ((List.range' k N).erase so).map (shiftDown so tg) = (List.range' k N).erase tg := by
  rw [range'_erase k N so hks (by omega), range'_erase k N tg (by omega) htk]
  have esplit := List.range'_append (so + 1) (tg - so) (k + N - tg - 1) 1
  have h1' : so + 1 + 1 * (tg - so) = tg + 1 := by omega
  have h2' : k + N - tg - 1 + (tg - so) = k + N - so - 1 := by omega
  rw [h1', h2'] at esplit
  rw [← esplit, List.map_append, List.map_append]
  have p1 : (List.range' k (so - k)).map (shiftDown so tg) = List.range' k (so - k) := by
    have hcg : ∀ v ∈ List.range' k (so - k), shiftDown so tg v = id v := by
      intro v hv
      have := mem_range'_iff.1 hv
      simp only [shiftDown, id]
      rw [if_neg (by omega)]
    rw [List.map_congr_left hcg, List.map_id]
  have p2 : (List.range' (so + 1) (tg - so)).map (shiftDown so tg)
      = List.range' so (tg - so) := by
    have hcg : ∀ v ∈ List.range' (so + 1) (tg - so), shiftDown so tg v = v - 1 := by
      intro v hv
      have := mem_range'_iff.1 hv
      simp only [shiftDown]
      rw [if_pos (by omega)]
    rw [List.map_congr_left hcg, map_pred_range']
  have p3 : (List.range' (tg + 1) (k + N - tg - 1)).map (shiftDown so tg)
      = List.range' (tg + 1) (k + N - tg - 1) := by
    have hcg : ∀ v ∈ List.range' (tg + 1) (k + N - tg - 1), shiftDown so tg v = id v := by
      intro v hv
      have := mem_range'_iff.1 hv
      simp only [shiftDown, id]
      rw [if_neg (by omega)]
    rw [List.map_congr_left hcg, List.map_id]
  rw [p1, p2, p3]
  have emerge := List.range'_append k (so - k) (tg - so) 1
  have h3' : k + 1 * (so - k) = so := by omega
  have h4' : tg - so + (so - k) = tg - k := by omega
  rw [h3', h4'] at emerge
  rw [← List.append_assoc, emerge]

theorem map_shiftUp_erase (k N so tg : Nat) (hkt : k ≤ tg) (hts : tg < so)
    (hsk : so < k + N) :
    ((List.range' k N).erase so).map (shiftUp so tg) = (List.range' k N).erase tg := by
  rw [range'_erase k N so (by omega) hsk, range'_erase k N tg hkt (by omega)]
  have esplit := List.range'_append k (tg - k) (so - tg) 1
  have h1' : k + 1 * (tg - k) = tg := by omega
  have h2' : so - tg + (tg - k) = so - k := by omega
  rw [h1', h2'] at esplit
  rw [← esplit, List.map_append, List.map_append]
  have p1 : (List.range' k (tg - k)).map (shiftUp so tg) = List.range' k (tg - k) := by
    have hcg : ∀ v ∈ List.range' k (tg - k), shiftUp so tg v = id v := by
      intro v hv
      have := mem_range'_iff.1 hv
      simp only [shiftUp, id]
      rw [if_neg (by omega)]
    rw [List.map_congr_left hcg, List.map_id]
  have p2 : (List.range' tg (so - tg)).map (shiftUp so tg)
      = List.range' (tg + 1) (so - tg) := by
    have hcg : ∀ v ∈ List.range' tg (so - tg), shiftUp so tg v = v + 1 := by
      intro v hv
      have := mem_range'_iff.1 hv
      simp only [shiftUp]
      rw [if_pos (by omega)]
    rw [List.map_congr_left hcg, map_succ_range']
  have p3 : (List.range' (so + 1) (k + N - so - 1)).map (shiftUp so tg)
      = List.range' (so + 1) (k + N - so - 1) := by
    have hcg : ∀ v ∈ List.range' (so + 1) (k + N - so - 1), shiftUp so tg v = id v := by
      intro v hv
      have := mem_range'_iff.1 hv
      simp only [shiftUp, id]
      rw [if_neg (by omega)]
    rw [List.map_congr_left hcg, List.map_id]
  rw [p1, p2, p3]
  have emerge := List.range'_append (tg + 1) (so - tg) (k + N - so - 1) 1
  have h3' : tg + 1 + 1 * (so - tg) = so + 1 := by omega
  have h4' : k + N - so - 1 + (so - tg) = k + N - tg - 1 := by omega
  rw [h3', h4'] at emerge
  rw [List.append_assoc, emerge]

theorem TodoList.find?_of_contains {l : TodoList} {s : Nat}
    (h : l.contains_key s = true) :
    ∃ es : Nat × Todo, l.todos.find? (fun e => e.1 == s) = some es ∧
      es ∈ l.todos ∧ es.1 = s := by
  cases hfind : l.todos.find? (fun e => e.1 == s) with
  | none =>
    exfalso
    rw [TodoList.contains_key, List.any_eq_true] at h
    obtain ⟨e, he, hp⟩ := h
    have hnone := List.find?_eq_none.1 hfind e he
    exact hnone hp
  | some es =>
    refine ⟨es, rfl, List.mem_of_find?_eq_some hfind, ?_⟩
    have := List.find?_some hfind
    simpa using this

theorem TodoList.contains_key_moving_down (l : TodoList) (so tg j : Nat) :
    (l.reorder_todos_moving_down so tg).contains_key j = l.contains_key j := by
  simp only [TodoList.reorder_todos_moving_down, TodoList.contains_key, List.any_map]
  congr 1
  funext e
  by_cases hc : so < e.2.order ∧ e.2.order ≤ tg <;> simp [Function.comp, hc]

theorem TodoList.contains_key_moving_up (l : TodoList) (so tg j : Nat) :
    (l.reorder_todos_moving_up so tg).contains_key j = l.contains_key j := by
  simp only [TodoList.reorder_todos_moving_up, TodoList.contains_key, List.any_map]
  congr 1
  funext e
  by_cases hc : tg ≤ e.2.order ∧ e.2.order < so <;> simp [Function.comp, hc]

/-- Splitting the order multiset of an entry-map image at the source
entry: away from the source key the map produces `sh` of the old
order, on the source entry it produces `tg`. -/
theorem orders_decomp (u v : List (Nat × Todo)) (es : Nat × Todo)
    (F : Nat × Todo → Nat) (sh : Nat → Nat) (tg s : Nat)
    (hFkey : ∀ e : Nat × Todo, e.1 ≠ s → F e = sh e.2.order)
    (hFs : F es = tg)
    (hu : ∀ e ∈ u, e.1 ≠ s) (hw : ∀ e ∈ v, e.1 ≠ s) :
    (u ++ es :: v).map F
      = u.map (fun e => sh e.2.order) ++ tg :: v.map (fun e => sh e.2.order) := by
  have hu' : u.map F = u.map (fun e => sh e.2.order) :=
    List.map_congr_left (fun e he => hFkey e (hu e he))
  have hv' : v.map F = v.map (fun e => sh e.2.order) :=
    List.map_congr_left (fun e he => hFkey e (hw e he))
  simp only [List.map_append, List.map_cons]
  rw [hu', hv', hFs]

/-- C2.  Order density preservation: if the order values of the `N`
todos form exactly the dense range `{k, ..., k+N-1}` (each exactly
once, stated as a permutation of `range' k N`) and `reorder(s, t)`
succeeds, the order values afterwards are the same dense range — no
duplicates and no gaps. -/
theorem reorder_preserves_dense_orders (l : TodoList) (s t k : Nat)
    (hnd : l.KeysNodup)
    (hperm : l.orders.Perm (List.range' k l.todos.length))
    (hsucc : (l.reorder s t).1 = true) :
    (l.reorder s t).2.orders.Perm (List.range' k l.todos.length) := by
  by_cases hv : l.validate_reorder_request s t = false
  · rw [TodoList.reorder, if_pos hv] at hsucc
    exact absurd hsucc (by simp)
  · have hv' : l.validate_reorder_request s t = true := by
      cases hb : l.validate_reorder_request s t
      · exact absurd hb hv
      · rfl
    rw [TodoList.validate_reorder_request] at hv'
    simp only [Bool.and_eq_true, bne_iff_ne, ne_eq] at hv'
    obtain ⟨⟨hst, hcs⟩, hct⟩ := hv'
    obtain ⟨es, hfs, hmems, hkeys⟩ := TodoList.find?_of_contains hcs
    obtain ⟨et, hft, hmemt, hkeyt⟩ := TodoList.find?_of_contains hct
    have hso : l.get_todo_order s = es.2.order := by
      simp [TodoList.get_todo_order, TodoList.get?, hfs]
    have hto : l.get_todo_order t = et.2.order := by
      simp [TodoList.get_todo_order, TodoList.get?, hft]
    obtain ⟨u, w, huv⟩ := List.append_of_mem hmems
    have hknd : ((u ++ es :: w).map Prod.fst).Nodup := by
      rw [← huv]
      exact hnd
    rw [List.map_append, List.map_cons] at hknd
    have hmid := List.nodup_middle.1 hknd
    rw [List.nodup_cons] at hmid
    have hnotin : es.1 ∉ u.map Prod.fst ++ w.map Prod.fst := hmid.1
    rw [hkeys] at hnotin
    have hu : ∀ e ∈ u, e.1 ≠ s := by
      intro e he heq
      exact hnotin (List.mem_append.2 (Or.inl (List.mem_map.2 ⟨e, he, heq⟩)))
    have hw : ∀ e ∈ w, e.1 ≠ s := by
      intro e he heq
      exact hnotin (List.mem_append.2 (Or.inr (List.mem_map.2 ⟨e, he, heq⟩)))
    have hord : l.orders = u.map (fun e => e.2.order)
        ++ es.2.order :: w.map (fun e => e.2.order) := by
      rw [TodoList.orders, huv, List.map_append, List.map_cons]
    have hperm1 : (es.2.order ::
        (u.map (fun e => e.2.order) ++ w.map (fun e => e.2.order))).Perm
        (List.range' k l.todos.length) := by
      refine List.Perm.trans ?_ hperm
      rw [hord]
      exact List.perm_middle.symm
    have hR : (u.map (fun e => e.2.order) ++ w.map (fun e => e.2.order)).Perm
        ((List.range' k l.todos.length).erase es.2.order) := by
      have h := hperm1.erase es.2.order
      rwa [List.erase_cons_head] at h
    have hsomem : es.2.order ∈ List.range' k l.todos.length :=
      hperm.mem_iff.1 (by rw [TodoList.orders]; exact List.mem_map.2 ⟨es, hmems, rfl⟩)
    have htomem : et.2.order ∈ List.range' k l.todos.length :=
      hperm.mem_iff.1 (by rw [TodoList.orders]; exact List.mem_map.2 ⟨et, hmemt, rfl⟩)
    have hsob := mem_range'_iff.1 hsomem
    have htob := mem_range'_iff.1 htomem
    have hndord : l.orders.Nodup := hperm.nodup_iff.2 (List.nodup_range' k l.todos.length)
    have hsoneto : es.2.order ≠ et.2.order := by
      have hnd2 : (u.map (fun e => e.2.order)
          ++ es.2.order :: w.map (fun e => e.2.order)).Nodup := by
        rw [← hord]
        exact hndord
      have hmid2 := List.nodup_middle.1 hnd2
      rw [List.nodup_cons] at hmid2
      have hetuv : et ∈ u ++ w := by
        have hmemt' : et ∈ u ++ es :: w := by
          rw [← huv]
          exact hmemt
        rcases List.mem_append.1 hmemt' with h1 | h2
        · exact List.mem_append.2 (Or.inl h1)
        · rcases List.mem_cons.1 h2 with h3 | h4
          · exfalso
            apply hst
            rw [← hkeys, ← hkeyt, h3]
          · exact List.mem_append.2 (Or.inr h4)
      intro heq
      apply hmid2.1
      rw [heq]
      rcases List.mem_append.1 hetuv with h1 | h2
      · exact List.mem_append.2 (Or.inl (List.mem_map.2 ⟨et, h1, rfl⟩))
      · exact List.mem_append.2 (Or.inr (List.mem_map.2 ⟨et, h2, rfl⟩))
    have hre2 : (l.reorder s t).2 = ((if es.2.order < et.2.order
        then l.reorder_todos_moving_down es.2.order et.2.order
        else l.reorder_todos_moving_up es.2.order et.2.order).update_source_todo_order
          s et.2.order).2 := by
      rw [TodoList.reorder, if_neg hv]
      simp only [hso, hto]
    by_cases hdir : es.2.order < et.2.order
    · rw [if_pos hdir] at hre2
      have hcsd : (l.reorder_todos_moving_down es.2.order
          et.2.order).contains_key s = true := by
        rw [TodoList.contains_key_moving_down]
        exact hcs
      have hupd : ((l.reorder_todos_moving_down es.2.order
            et.2.order).update_source_todo_order s et.2.order).2
          = (l.reorder_todos_moving_down es.2.order et.2.order).modifyTodo s
              (fun td => { td with order := et.2.order }) := by
        simp [TodoList.update_source_todo_order, hcsd]
      have hX : ((l.reorder_todos_moving_down es.2.order et.2.order).modifyTodo s
            (fun td => { td with order := et.2.order })).orders
          = u.map (fun e => shiftDown es.2.order et.2.order e.2.order)
            ++ et.2.order ::
              w.map (fun e => shiftDown es.2.order et.2.order e.2.order) := by
        simp only [TodoList.modifyTodo, TodoList.reorder_todos_moving_down,
          TodoList.orders, List.map_map]
        rw [huv]
        refine orders_decomp u w es _ (shiftDown es.2.order et.2.order) et.2.order s
          ?_ ?_ hu hw
        · intro e hne
          by_cases hc : es.2.order < e.2.order ∧ e.2.order ≤ et.2.order
          · simp [Function.comp, hc, hne, shiftDown]
          · simp [Function.comp, hc, hne, shiftDown]
        · simp [Function.comp, hkeys, shiftDown]
      rw [hre2, hupd, hX]
      refine List.Perm.trans List.perm_middle ?_
      have hjoin : u.map (fun e => shiftDown es.2.order et.2.order e.2.order)
            ++ w.map (fun e => shiftDown es.2.order et.2.order e.2.order)
          = (u.map (fun e => e.2.order) ++ w.map (fun e => e.2.order)).map
              (shiftDown es.2.order et.2.order) := by
        rw [List.map_append, List.map_map, List.map_map]
        rfl
      rw [hjoin]
      refine List.Perm.trans ((hR.map (shiftDown es.2.order et.2.order)).cons et.2.order) ?_
      rw [map_shiftDown_erase k l.todos.length es.2.order et.2.order hsob.1 hdir htob.2]
      exact (List.perm_cons_erase htomem).symm
    · have hdir' : et.2.order < es.2.order := by omega
      rw [if_neg hdir] at hre2
      have hcsd : (l.reorder_todos_moving_up es.2.order
          et.2.order).contains_key s = true := by
        rw [TodoList.contains_key_moving_up]
        exact hcs
      have hupd : ((l.reorder_todos_moving_up es.2.order
            et.2.order).update_source_todo_order s et.2.order).2
          = (l.reorder_todos_moving_up es.2.order et.2.order).modifyTodo s
              (fun td => { td with order := et.2.order }) := by
        simp [TodoList.update_source_todo_order, hcsd]
      have hX : ((l.reorder_todos_moving_up es.2.order et.2.order).modifyTodo s
            (fun td => { td with order := et.2.order })).orders
          = u.map (fun e => shiftUp es.2.order et.2.order e.2.order)
            ++ et.2.order ::
              w.map (fun e => shiftUp es.2.order et.2.order e.2.order) := by
        simp only [TodoList.modifyTodo, TodoList.reorder_todos_moving_up,
          TodoList.orders, List.map_map]
        rw [huv]
        refine orders_decomp u w es _ (shiftUp es.2.order et.2.order) et.2.order s
          ?_ ?_ hu hw
        · intro e hne
          by_cases hc : et.2.order ≤ e.2.order ∧ e.2.order < es.2.order
          · simp [Function.comp, hc, hne, shiftUp]
          · simp [Function.comp, hc, hne, shiftUp]
        · simp [Function.comp, hkeys, shiftUp]
      rw [hre2, hupd, hX]
      refine List.Perm.trans List.perm_middle ?_
      have hjoin : u.map (fun e => shiftUp es.2.order et.2.order e.2.order)
            ++ w.map (fun e => shiftUp es.2.order et.2.order e.2.order)
          = (u.map (fun e => e.2.order) ++ w.map (fun e => e.2.order)).map
              (shiftUp es.2.order et.2.order) := by
        rw [List.map_append, List.map_map, List.map_map]
        rfl
      rw [hjoin]
      refine List.Perm.trans ((hR.map (shiftUp es.2.order et.2.order)).cons et.2.order) ?_
      rw [map_shiftUp_erase k l.todos.length es.2.order et.2.order htob.1 hdir' hsob.2]
      exact (List.perm_cons_erase htomem).symm

/-- Witness for C2: the dense three-todo scenario, orders `{1,2,3}`,
after the successful `reorder(1, 3)`. -/
theorem reorder_preserves_dense_orders_witness :
    (scenarioABC.reorder 1 3).2.orders.Perm (List.range' 1 scenarioABC.todos.length) :=
  reorder_preserves_dense_orders scenarioABC 1 3 1
    (by unfold TodoList.KeysNodup; decide) (by decide) (by decide)

/-! ## Reachability invariant (claim C10) -/

theorem Todo.order_add_tag (t : Todo) (tag : String) :
    (t.add_tag tag).order = t.order := by
  unfold Todo.add_tag
  split
  · rfl
  · rfl

/-- `modifyTodo` with an order-preserving update keeps the invariant
that every order and every key is below `next_id`. -/
theorem inv_modifyTodo (l : TodoList) (id : Nat) (f : Todo → Todo)
    (hf : ∀ td, (f td).order = td.order)
    (h : ∀ e ∈ l.todos, e.2.order < l.next_id ∧ e.1 < l.next_id) :
    ∀ e ∈ (l.modifyTodo id f).todos,
      e.2.order < (l.modifyTodo id f).next_id ∧ e.1 < (l.modifyTodo id f).next_id := by
  intro e he
  simp only [TodoList.modifyTodo] at he ⊢
  obtain ⟨e0, he0, rfl⟩ := List.mem_map.1 he
  by_cases hc : e0.1 = id
  · rw [if_pos hc]
    refine ⟨?_, (h e0 he0).2⟩
    show (f e0.2).order < l.next_id
    rw [hf]
    exact (h e0 he0).1
  · rw [if_neg hc]
    exact h e0 he0

/-- `modifyTodo` whose update always lands below `next_id` keeps the
bound invariant. -/
theorem inv_modifyTodo_lt (l : TodoList) (id : Nat) (f : Todo → Todo)
    (hf : ∀ td : Todo, (f td).order < l.next_id)
    (h : ∀ e ∈ l.todos, e.2.order < l.next_id ∧ e.1 < l.next_id) :
    ∀ e ∈ (l.modifyTodo id f).todos,
      e.2.order < (l.modifyTodo id f).next_id ∧ e.1 < (l.modifyTodo id f).next_id := by
  intro e he
  simp only [TodoList.modifyTodo] at he ⊢
  obtain ⟨e0, he0, rfl⟩ := List.mem_map.1 he
  by_cases hc : e0.1 = id
  · rw [if_pos hc]
    exact ⟨hf e0.2, (h e0 he0).2⟩
  · rw [if_neg hc]
    exact h e0 he0

/-- The decrementing shift keeps the bound invariant. -/
theorem inv_moving_down (l : TodoList) (so tg : Nat)
    (h : ∀ e ∈ l.todos, e.2.order < l.next_id ∧ e.1 < l.next_id) :
    ∀ e ∈ (l.reorder_todos_moving_down so tg).todos,
      e.2.order < (l.reorder_todos_moving_down so tg).next_id ∧
      e.1 < (l.reorder_todos_moving_down so tg).next_id := by
  intro e he
  simp only [TodoList.reorder_todos_moving_down] at he ⊢
  obtain ⟨e0, he0, rfl⟩ := List.mem_map.1 he
  have hb := h e0 he0
  by_cases hc : so < e0.2.order ∧ e0.2.order ≤ tg
  · rw [if_pos hc]
    refine ⟨?_, hb.2⟩
    show e0.2.order - 1 < l.next_id
    omega
  · rw [if_neg hc]
    exact hb

/-- The incrementing shift keeps the bound invariant: it only touches
orders strictly below the source order, which is itself below
`next_id`. -/
theorem inv_moving_up (l : TodoList) (so tg : Nat) (hso : so < l.next_id)
    (h : ∀ e ∈ l.todos, e.2.order < l.next_id ∧ e.1 < l.next_id) :
    ∀ e ∈ (l.reorder_todos_moving_up so tg).todos,
      e.2.order < (l.reorder_todos_moving_up so tg).next_id ∧
      e.1 < (l.reorder_todos_moving_up so tg).next_id := by
  intro e he
  simp only [TodoList.reorder_todos_moving_up] at he ⊢
  obtain ⟨e0, he0, rfl⟩ := List.mem_map.1 he
  have hb := h e0 he0
  by_cases hc : tg ≤ e0.2.order ∧ e0.2.order < so
  · rw [if_pos hc]
    refine ⟨?_, hb.2⟩
    show e0.2.order + 1 < l.next_id
    omega
  · rw [if_neg hc]
    exact hb

/-- One public operation preserves the bound invariant. -/
theorem applyOp_preserves_inv (l : TodoList) (op : Op)
    (h : ∀ e ∈ l.todos, e.2.order < l.next_id ∧ e.1 < l.next_id) :
    ∀ e ∈ (applyOp l op).todos,
      e.2.order < (applyOp l op).next_id ∧ e.1 < (applyOp l op).next_id := by
  have hfresh : l.contains_key l.next_id = false := by
    cases hb : l.contains_key l.next_id
    · rfl
    · exfalso
      obtain ⟨td, hmem⟩ := TodoList.contains_key_iff.1 hb
      exact Nat.lt_irrefl l.next_id (h (l.next_id, td) hmem).2
  cases op with
  | add text =>
    have hadd : (l.add text).2 =
        { todos := l.todos ++ [(l.next_id,
            { id := l.next_id, text := text, completed := false,
              due_date := none, tags := [], order := l.next_id })],
          next_id := l.next_id + 1 } := by
      simp [TodoList.add, TodoList.insert, hfresh, Todo.new]
    show ∀ e ∈ (l.add text).2.todos,
      e.2.order < (l.add text).2.next_id ∧ e.1 < (l.add text).2.next_id
    rw [hadd]
    intro e he
    rcases List.mem_append.1 he with hold | hnew
    · have hb := h e hold
      refine ⟨?_, ?_⟩
      · show e.2.order < l.next_id + 1
        omega
      · show e.1 < l.next_id + 1
        omega
    · rw [List.mem_singleton.1 hnew]
      refine ⟨?_, ?_⟩
      · show l.next_id < l.next_id + 1
        omega
      · show l.next_id < l.next_id + 1
        omega
  | remove id =>
    intro e he
    have he' : e ∈ (l.removeKey id).todos := he
    have := h e (List.mem_of_mem_filter he')
    exact this
  | toggle id =>
    by_cases hc : l.contains_key id = true
    · have happ : applyOp l (Op.toggle id) = l.modifyTodo id Todo.toggle := by
        show (l.toggle_completion id).2 = _
        rw [TodoList.toggle_completion, if_pos hc]
      rw [happ]
      exact inv_modifyTodo l id Todo.toggle (fun td => rfl) h
    · have happ : applyOp l (Op.toggle id) = l := by
        show (l.toggle_completion id).2 = _
        rw [TodoList.toggle_completion, if_neg hc]
      rw [happ]
      exact h
  | update_text id text =>
    by_cases hc : l.contains_key id = true
    · have happ : applyOp l (Op.update_text id text)
          = l.modifyTodo id (fun t => { t with text := text }) := by
        show (l.update_text id text).2 = _
        rw [TodoList.update_text, if_pos hc]
      rw [happ]
      exact inv_modifyTodo l id _ (fun td => rfl) h
    · have happ : applyOp l (Op.update_text id text) = l := by
        show (l.update_text id text).2 = _
        rw [TodoList.update_text, if_neg hc]
      rw [happ]
      exact h
  | set_due_date id date =>
    by_cases hc : l.contains_key id = true
    · have happ : applyOp l (Op.set_due_date id date)
          = l.modifyTodo id (fun t => t.set_due_date date) := by
        show (l.set_due_date id date).2 = _
        rw [TodoList.set_due_date, if_pos hc]
      rw [happ]
      exact inv_modifyTodo l id _ (fun td => rfl) h
    · have happ : applyOp l (Op.set_due_date id date) = l := by
        show (l.set_due_date id date).2 = _
        rw [TodoList.set_due_date, if_neg hc]
      rw [happ]
      exact h
  | add_tag id tag =>
    by_cases hc : l.contains_key id = true
    · have happ : applyOp l (Op.add_tag id tag)
          = l.modifyTodo id (fun t => t.add_tag tag) := by
        show (TodoList.add_tag l id tag).2 = _
        rw [TodoList.add_tag, if_pos hc]
      rw [happ]
      exact inv_modifyTodo l id _ (fun td => Todo.order_add_tag td tag) h
    · have happ : applyOp l (Op.add_tag id tag) = l := by
        show (TodoList.add_tag l id tag).2 = _
        rw [TodoList.add_tag, if_neg hc]
      rw [happ]
      exact h
  | remove_tag id tag =>
    by_cases hc : l.contains_key id = true
    · have happ : applyOp l (Op.remove_tag id tag)
          = l.modifyTodo id (fun t => t.remove_tag tag) := by
        show (TodoList.remove_tag l id tag).2 = _
        rw [TodoList.remove_tag, if_pos hc]
      rw [happ]
      exact inv_modifyTodo l id _ (fun td => rfl) h
    · have happ : applyOp l (Op.remove_tag id tag) = l := by
        show (TodoList.remove_tag l id tag).2 = _
        rw [TodoList.remove_tag, if_neg hc]
      rw [happ]
      exact h
  | clear_completed =>
    have hfold := TodoList.foldl_removeKey
      ((l.todos.filter (fun p => p.2.completed)).map Prod.fst) l
    have happ : applyOp l Op.clear_completed
        = { todos := l.todos.filter (fun e =>
              !(((l.todos.filter (fun p => p.2.completed)).map Prod.fst).contains e.1)),
            next_id := l.next_id } := hfold
    rw [happ]
    intro e he
    exact h e (List.mem_of_mem_filter he)
  | reorder s t =>
    by_cases hval : l.validate_reorder_request s t = false
    · have happ : applyOp l (Op.reorder s t) = l := by
        show (l.reorder s t).2 = l
        rw [TodoList.reorder, if_pos hval]
      rw [happ]
      exact h
    · have hcs : l.contains_key s = true := by
        cases hb : l.contains_key s
        · exfalso
          apply hval
          simp [TodoList.validate_reorder_request, hb]
        · rfl
      obtain ⟨es, hfs, hmems, hkeys⟩ := TodoList.find?_of_contains hcs
      obtain ⟨et, hft, hmemt, hkeyt⟩ := TodoList.find?_of_contains (show l.contains_key t = true by
        cases hb : l.contains_key t
        · exfalso
          apply hval
          simp [TodoList.validate_reorder_request, hb]
        · rfl)
      have hso : l.get_todo_order s = es.2.order := by
        simp [TodoList.get_todo_order, TodoList.get?, hfs]
      have hto : l.get_todo_order t = et.2.order := by
        simp [TodoList.get_todo_order, TodoList.get?, hft]
      have hsolt : es.2.order < l.next_id := (h es hmems).1
      have htolt : et.2.order < l.next_id := (h et hmemt).1
      by_cases hdir : es.2.order < et.2.order
      · have hcsd : (l.reorder_todos_moving_down es.2.order
            et.2.order).contains_key s = true := by
          rw [TodoList.contains_key_moving_down]
          exact hcs
        have happ : applyOp l (Op.reorder s t)
            = (l.reorder_todos_moving_down es.2.order et.2.order).modifyTodo s
                (fun td => { td with order := et.2.order }) := by
          show (l.reorder s t).2 = _
          rw [TodoList.reorder, if_neg hval]
          simp only [hso, hto, if_pos hdir]
          simp [TodoList.update_source_todo_order, hcsd]
        rw [happ]
        exact inv_modifyTodo_lt _ s _ (fun td => htolt)
          (inv_moving_down l es.2.order et.2.order h)
      · have hcsd : (l.reorder_todos_moving_up es.2.order
            et.2.order).contains_key s = true := by
          rw [TodoList.contains_key_moving_up]
          exact hcs
        have happ : applyOp l (Op.reorder s t)
            = (l.reorder_todos_moving_up es.2.order et.2.order).modifyTodo s
                (fun td => { td with order := et.2.order }) := by
          show (l.reorder s t).2 = _
          rw [TodoList.reorder, if_neg hval]
          simp only [hso, hto, if_neg hdir]
          simp [TodoList.update_source_todo_order, hcsd]
        rw [happ]
        exact inv_modifyTodo_lt _ s _ (fun td => htolt)
          (inv_moving_up l es.2.order et.2.order hsolt h)

/-- Any operation sequence preserves the bound invariant. -/
theorem runOps_preserves_inv (ops : List Op) : ∀ l : TodoList,
    (∀ e ∈ l.todos, e.2.order < l.next_id ∧ e.1 < l.next_id) →
    ∀ e ∈ (runOps l ops).todos,
      e.2.order < (runOps l ops).next_id ∧ e.1 < (runOps l ops).next_id := by
  induction ops with
  | nil =>
    intro l h
    exact h
  | cons op ops ih =>
    intro l h
    exact ih (applyOp l op) (applyOp_preserves_inv l op h)

/-- C10.  In every state reachable from the empty collection by public
operations, every todo's order and every key is strictly below
`next_id`; consequently the fresh id of the next `add` collides with no
present key, and the added todo (order = `next_id`) lands strictly
after every existing todo in `all()`. -/
theorem reachable_order_bound (ops : List Op) :
    (∀ e ∈ (runOps TodoList.new ops).todos,
      e.2.order < (runOps TodoList.new ops).next_id ∧
      e.1 < (runOps TodoList.new ops).next_id) ∧
    (runOps TodoList.new ops).contains_key (runOps TodoList.new ops).next_id = false := by
  have hinv := runOps_preserves_inv ops TodoList.new (by
    intro e he
    simp [TodoList.new] at he)
  refine ⟨hinv, ?_⟩
  cases hb : (runOps TodoList.new ops).contains_key (runOps TodoList.new ops).next_id
  · rfl
  · exfalso
    obtain ⟨td, hmem⟩ := TodoList.contains_key_iff.1 hb
    exact Nat.lt_irrefl _ (hinv (_, td) hmem).2

end TodoApp

